import Mathlib

/-!
# patchitup: a shallow embedding of the patch log, the rebuild loop, the
upload path and the keypair package

Go strings and byte slices are sequences of bytes; both are modelled as
`List Nat`.  Library functions of the Go standard library and of third-party
packages are either written out (strings, strconv, sort, path, hash/fnv) or
taken as parameters (nacl/box, base58, math/rand, md5).  The functions of the
repository itself are translated statement by statement.
-/

namespace PatchItUp

deriving instance DecidableEq for Except

/-! ## Go strings -/

/-- A Go string: an immutable sequence of bytes. -/
abbrev GoString := List Nat

/-- A Go byte slice. -/
abbrev Bytes := List Nat

/-- A Go error value, identified with its message. -/
abbrev Err := List Nat

/-- The bytes of an ASCII string literal. -/
def ascii (s : String) : GoString := s.toList.map Char.toNat

/-- The byte of the dot separator. -/
def dot : Nat := 46

/-- The byte of the slash separator. -/
def slash : Nat := 47

/-- Go strings.HasPrefix. -/
def stringsHasPrefix (s pre : GoString) : Bool := pre.isPrefixOf s

/-- Go strings.Split for a one-byte separator: the pieces between separators,
one more piece than there are separators. -/
def stringsSplit (sep : Nat) : GoString → List GoString
  | [] => [[]]
  | c :: cs =>
    if c = sep then [] :: stringsSplit sep cs
    else
      match stringsSplit sep cs with
      | [] => [[c]]
      | piece :: pieces => (c :: piece) :: pieces

/-- Go strings.Join. -/
def stringsJoin (sep : GoString) : List GoString → GoString
  | [] => []
  | [a] => a
  | a :: b :: rest => a ++ sep ++ stringsJoin sep (b :: rest)

/-- Value of a run of decimal digits, none when a byte is not a digit. -/
def digitsValue : GoString → Nat → Option Nat
  | [], acc => some acc
  | c :: cs, acc => if 48 ≤ c ∧ c ≤ 57 then digitsValue cs (acc * 10 + (c - 48)) else none

/-- Go strconv.Atoi on a 64-bit platform: an optional sign, then one or more
decimal digits, the value within the int64 range; any other input is an error
(none). -/
def Atoi (s : GoString) : Option Int :=
  match s with
  | [] => none
  | c :: cs =>
    let neg := decide (c = 45)
    let ds := if c = 45 ∨ c = 43 then cs else c :: cs
    if ds = [] then none
    else
      match digitsValue ds 0 with
      | none => none
      | some n =>
        let v : Int := if neg then -(n : Int) else (n : Int)
        if -(2 : Int) ^ 63 ≤ v ∧ v < (2 : Int) ^ 63 then some v else none

/-- Decimal digits of a natural number, most significant first. -/
def decimalDigits : Nat → Nat → GoString → GoString
  | 0, _, acc => acc
  | fuel + 1, n, acc =>
    let acc1 := (48 + n % 10) :: acc
    if n / 10 = 0 then acc1 else decimalDigits fuel (n / 10) acc1

/-- The verb %d of fmt.Sprintf on an integer. -/
def formatInt (i : Int) : GoString :=
  match i with
  | Int.ofNat n => decimalDigits (n + 1) n []
  | Int.negSucc n => 45 :: decimalDigits (n + 2) (n + 1) []

/-- Go sort.Ints: the ascending rearrangement of the slice. -/
def sortInts (keys : List Int) : List Int := keys.insertionSort (· ≤ ·)

/-! ## Package path -/

/-- One element of path.Clean: empty elements and "." are dropped, ".."
removes the last kept element (or is kept itself in a relative path with
nothing to remove), any other element is kept.  The kept elements are held
most recent first. -/
def cleanStep (rooted : Bool) (kept : List GoString) (el : GoString) : List GoString :=
  if el = [] ∨ el = [dot] then kept
  else if el = [dot, dot] then
    match kept with
    | [] => if rooted then [] else [el]
    | top :: rest => if top = [dot, dot] then (if rooted then kept else el :: kept) else rest
  else el :: kept

/-- Go path.Clean. -/
def pathClean (path : GoString) : GoString :=
  match path with
  | [] => [dot]
  | c :: _ =>
    let rooted := decide (c = slash)
    let kept := (stringsSplit slash path).foldl (cleanStep rooted) []
    let body := stringsJoin [slash] kept.reverse
    if rooted then slash :: body else if body = [] then [dot] else body

/-- Go path.Join of two elements. -/
def pathJoin (a b : GoString) : GoString :=
  if a ≠ [] then pathClean (a ++ [slash] ++ b)
  else if b ≠ [] then pathClean b
  else []

/-- Go filepath.Split on a slash-separated platform: the directory up to and
including the last slash, and the file name after it. -/
def filepathSplit (path : GoString) : GoString × GoString :=
  let pieces := stringsSplit slash path
  let file := pieces.getLast?.getD []
  (path.take (path.length - file.length), file)

/-! ## Package patchitup: the patch log -/

/-- The client state, type Patchitup of patchitup.go. -/
structure Patchitup where
  username : GoString
  serverAddress : GoString
  filename : GoString
  cacheFolder : GoString
  hashLocal : GoString
deriving DecidableEq, Repr

/-- One record of the patch log, type patchFile of patchitup.go. -/
structure patchFile where
  Filename : GoString
  Hash : GoString
  Timestamp : Int
deriving DecidableEq, Repr

/-- The zero value of patchFile. -/
def patchFile.zero : patchFile := ⟨[], [], 0⟩

/-- A Go map from int to patchFile, as a list of bindings with distinct keys. -/
abbrev PatchMap := List (Int × patchFile)

/-- The assignment m[k] = v. -/
def PatchMap.set (m : PatchMap) (k : Int) (v : patchFile) : PatchMap :=
  (k, v) :: m.filter (fun e => decide (e.1 ≠ k))

/-- The lookup m[k]; the zero value when the key is absent. -/
def PatchMap.get (m : PatchMap) (k : Int) : patchFile :=
  match m.find? (fun e => decide (e.1 = k)) with
  | some e => e.2
  | none => patchFile.zero

/-- Every binding of the map stores a record under that record's timestamp. -/
def PatchMap.Keyed (m : PatchMap) : Prop := ∀ e ∈ m, e.2.Timestamp = e.1

/-- The body of the first loop of getPatches for one directory entry. -/
def scanEntry (p : Patchitup) (m : PatchMap) (name : GoString) : PatchMap :=
  if !stringsHasPrefix name (p.filename ++ [dot]) then m
  else
    let g := stringsSplit dot name
    if g.length < 4 then m
    else
      match Atoi (g.getD (g.length - 1) []) with
      | none => m
      | some ts =>
        m.set ts { Filename := pathJoin p.cacheFolder name,
                   Hash := g.getD (g.length - 2) [],
                   Timestamp := ts }

/-- Function getPatches of patchitup.go.  The argument readDir is the result of
ioutil.ReadDir on the cache folder, reduced to the entries' names. -/
def getPatches (p : Patchitup) (readDir : Except Err (List GoString)) :
    Except Err (List patchFile) :=
  match readDir with
  | .error e => .error e
  | .ok files =>
    let m : PatchMap := files.foldl (scanEntry p) []
    let keys := sortInts (m.map Prod.fst)
    .ok (keys.map m.get)

/-! ## Package patchitup: collaborators -/

/-- The functions of package patchitup that patchitup.go calls and that are
declared in files outside src/ (decode, patchText, encode, getPatch,
getFileText), and the helpers of package utils (Md5Sum, Dos2Unix), taken as
parameters.  The file system is passed to getFileText as the table of file
contents, path by path. -/
structure Codec where
  decode : GoString → Except Err GoString
  patchText : GoString → GoString → Except Err GoString
  encode : GoString → GoString
  getPatch : GoString → GoString → GoString
  getFileText : (GoString → Option Bytes) → GoString → Except Err GoString
  Md5Sum : GoString → GoString
  Dos2Unix : Bytes → Bytes

/-- What a run of Rebuild does besides returning: the files it reads with
ioutil.ReadFile and the two digests it writes to the debug log per record. -/
inductive Event where
  | readFile (path : GoString)
  | logHashes (rebuilt supposed : GoString)
deriving DecidableEq, Repr

/-- The paths read, in order. -/
def readsOf : List Event → List GoString
  | [] => []
  | Event.readFile path :: rest => path :: readsOf rest
  | Event.logHashes _ _ :: rest => readsOf rest

/-- The pairs (rebuilt hash, supposed hash) logged, in order. -/
def hashesOf : List Event → List (GoString × GoString)
  | [] => []
  | Event.readFile _ :: rest => hashesOf rest
  | Event.logHashes r s :: rest => (r, s) :: hashesOf rest

/-! ## Rebuild -/

/-- The loop of Rebuild over the patches: read the record, decode it, apply it
to currentText; the first error ends the loop.  Returns the running text after
the last record, or the error, with the events so far. -/
def rebuildLoop (C : Codec) (readFile : GoString → Except Err Bytes) :
    List patchFile → GoString → List Event → Except Err GoString × List Event
  | [], currentText, trace => (.ok currentText, trace)
  | patch :: rest, currentText, trace =>
    let trace1 := trace ++ [Event.readFile patch.Filename]
    match readFile patch.Filename with
    | .error e => (.error e, trace1)
    | .ok patchBytes =>
      match C.decode patchBytes with
      | .error e => (.error e, trace1)
      | .ok patchString =>
        match C.patchText currentText patchString with
        | .error e => (.error e, trace1)
        | .ok next =>
          rebuildLoop C readFile rest next
            (trace1 ++ [Event.logHashes (C.Md5Sum next) patch.Hash])

/-- The outcome of Rebuild: the receiver after the call, the returned error
(none for nil), the value of the local currentText once the loop has run
through every record, and the events. -/
structure RebuildOutcome where
  p : Patchitup
  err : Option Err
  currentText : Option GoString
  trace : List Event
deriving DecidableEq, Repr

/-- Method Rebuild of patchitup.go.  The arguments readDir and readFile are the
results of ioutil.ReadDir on the cache folder and of ioutil.ReadFile. -/
def Rebuild (C : Codec) (readDir : Except Err (List GoString))
    (readFile : GoString → Except Err Bytes) (p : Patchitup) (pathToFile : GoString) :
    RebuildOutcome :=
  let p1 := { p with filename := (filepathSplit pathToFile).2 }
  match getPatches p1 readDir with
  | .error e => { p := p1, err := some e, currentText := none, trace := [] }
  | .ok patches =>
    match rebuildLoop C readFile patches [] [] with
    | (.error e, trace) => { p := p1, err := some e, currentText := none, trace := trace }
    | (.ok text, trace) =>
      { p := p1, err := none, currentText := some text,
        trace := trace ++ [Event.readFile (ascii "test.txt")] }

/-- One step of the replay in the words of the spec: read the record, decode
its delta and apply it to the running text. -/
def replayStep (C : Codec) (readFile : GoString → Except Err Bytes)
    (text : GoString) (r : patchFile) : Except Err GoString :=
  match readFile r.Filename with
  | .error e => .error e
  | .ok stored =>
    match C.decode stored with
    | .error e => .error e
    | .ok delta => C.patchText text delta

/-- The replay in the words of the spec: a left fold of decode-then-apply over
the records, from a running text, that stops at the first failure. -/
def replayFrom (C : Codec) (readFile : GoString → Except Err Bytes)
    (start : Except Err GoString) (records : List patchFile) : Except Err GoString :=
  records.foldl
    (fun acc r => match acc with
      | .error e => .error e
      | .ok text => replayStep C readFile text r)
    start

/-- The replay of a patch log from the empty text. -/
def replayFold (C : Codec) (readFile : GoString → Except Err Bytes)
    (records : List patchFile) : Except Err GoString :=
  replayFrom C readFile (.ok []) records

/-! ## PatchUp -/

/-- Modelled from the spec: type serverRequest is declared outside src/; its
fields are the ones patchitup.go sets, the request {username, filename, patch}
of the wire protocol. -/
structure serverRequest where
  Username : GoString
  Filename : GoString
  Patch : GoString
deriving DecidableEq, Repr

/-- Modelled from the spec: type serverResponse is declared outside src/; its
fields are the ones patchitup.go reads, the response {success, message} of the
wire protocol. -/
structure serverResponse where
  Success : Bool
  Message : GoString
deriving DecidableEq, Repr

/-- The zero value of serverResponse. -/
def serverResponse.zero : serverResponse := ⟨false, []⟩

/-- The network as postToServer sees it: for an address and a request, either
an error (building the request, the transport, or decoding the response body)
or the decoded response. -/
abbrev Transport := GoString → serverRequest → Except Err serverResponse

/-- Function postToServer of patchitup.go. -/
def postToServer (net : Transport) (address : GoString) (sr : serverRequest) :
    serverResponse × Option Err :=
  match net address sr with
  | .error e => (serverResponse.zero, some e)
  | .ok target =>
    if !target.Success then (target, some target.Message) else (target, none)

/-- Method uploadPatches of patchitup.go.  The argument unixNano is the value
of time.Now().UTC().UnixNano(). -/
def uploadPatches (net : Transport) (unixNano : Int) (p : Patchitup) (patch : GoString) :
    Option Err :=
  let filename := p.filename ++ [dot] ++ p.hashLocal ++ [dot] ++ formatInt (unixNano.tdiv 1000000)
  let sr : serverRequest := { Username := p.username, Filename := filename, Patch := patch }
  (postToServer net (p.serverAddress ++ ascii "/patch") sr).2

/-- The file system: the regular files and their contents, the most recent
write of a path first. -/
abbrev FS := List (GoString × Bytes)

/-- The content of a file, none when there is no such file. -/
def FS.read (fs : FS) (path : GoString) : Option Bytes :=
  match fs.find? (fun e => decide (e.1 = path)) with
  | some e => some e.2
  | none => none

/-- Writing a file. -/
def FS.write (fs : FS) (path : GoString) (content : Bytes) : FS := (path, content) :: fs

/-- Function utils.Exists. -/
def utilsExists (fs : FS) (path : GoString) : Bool := (fs.read path).isSome

/-- Function utils.CopyFile: the destination receives the content of the
source; an error when the source cannot be read. -/
def utilsCopyFile (fs : FS) (src dst : GoString) : Option Err × FS :=
  match fs.read src with
  | none => (some (ascii "no such file"), fs)
  | some content => (none, fs.write dst content)

/-- Function utils.Filemd5Sum. -/
def utilsFilemd5Sum (C : Codec) (fs : FS) (path : GoString) : Except Err GoString :=
  match fs.read path with
  | none => .error (ascii "no such file")
  | some content => .ok (C.Md5Sum content)

/-- The outcome of PatchUp: the receiver after the call, the returned error
(none for nil), the file system after the call, and the result of the call of
uploadPatches when the run reached it. -/
structure PatchUpOutcome where
  p : Patchitup
  err : Option Err
  fs : FS
  upload : Option (Option Err)
deriving DecidableEq, Repr

/-- Method PatchUp of patchitup.go. -/
def PatchUp (C : Codec) (net : Transport) (unixNano : Int) (fs : FS) (p : Patchitup)
    (pathToFile : GoString) : PatchUpOutcome :=
  let p1 := { p with filename := (filepathSplit pathToFile).2 }
  if !utilsExists fs pathToFile then
    { p := p1, err := some (ascii "'" ++ pathToFile ++ ascii "' not found"), fs := fs,
      upload := none }
  else
    match utilsCopyFile fs pathToFile (pathToFile ++ ascii ".temp") with
    | (some e, fs1) => { p := p1, err := some e, fs := fs1, upload := none }
    | (none, fs1) =>
      let pathToFile1 := pathToFile ++ ascii ".temp"
      match C.getFileText fs1.read pathToFile1 with
      | .error e => { p := p1, err := some e, fs := fs1, upload := none }
      | .ok localText0 =>
        let localText := C.Dos2Unix localText0
        let p2 := { p1 with hashLocal := C.Md5Sum localText }
        let pathToLocalCopyOfRemote := pathJoin p2.cacheFolder (p2.filename ++ ascii ".last")
        let cached : Except Err GoString :=
          if utilsExists fs1 pathToLocalCopyOfRemote then
            match utilsFilemd5Sum C fs1 pathToLocalCopyOfRemote with
            | .error e => .error e
            | .ok _ => C.getFileText fs1.read pathToLocalCopyOfRemote
          else .ok []
        match cached with
        | .error e => { p := p2, err := some e, fs := fs1, upload := none }
        | .ok localCopyOfRemoteText =>
          let patch := C.getPatch localCopyOfRemoteText localText
          match uploadPatches net unixNano p2 (C.encode patch) with
          | some e => { p := p2, err := some e, fs := fs1, upload := some (some e) }
          | none =>
            let copied :=
              utilsCopyFile fs1 pathToFile1 (pathJoin p2.cacheFolder (p2.filename ++ ascii ".last"))
            { p := p2, err := copied.1, fs := copied.2, upload := some none }

/-! ## Sample collaborators for concrete runs -/

/-- A small codec for concrete runs: a patch is the text to append, encoding
is the identity, the digest is the sum of the bytes modulo 256, and a file's
text is its content. -/
def sampleCodec : Codec where
  decode := fun s => .ok s
  patchText := fun text patch => .ok (text ++ patch)
  encode := fun s => s
  getPatch := fun old new => new.drop old.length
  getFileText := fun read path =>
    match read path with
    | some content => .ok content
    | none => .error (ascii "no such file")
  Md5Sum := fun text => [text.foldl (· + ·) 0 % 256]
  Dos2Unix := fun b => b

/-- A client whose cache folder is /c. -/
def sampleClient : Patchitup :=
  { username := ascii "u", serverAddress := ascii "http://s", filename := [],
    cacheFolder := ascii "/c", hashLocal := [] }

/-- A server that refuses every request with the message denied. -/
def denyingServer : Transport := fun _ _ => .ok ⟨false, ascii "denied"⟩

/-- A file system with a working copy of a.txt and an older snapshot of it in
the cache folder. -/
def sampleFS : FS :=
  [(ascii "/w/a.txt", ascii "hello"), (ascii "/c/a.txt.last", ascii "he")]

/-! ## Package keypair -/

/-- The run of a Go function: it returns its results, or panics. -/
inductive Run (α : Type) where
  | done (results : α)
  | panic
deriving DecidableEq, Repr

/-- The library functions that package keypair calls, taken as parameters:
curve25519 scalar base multiplication (the public key that box.GenerateKey
computes for a private key), the sealed box that box.Seal appends for a
message, a nonce, the peer's public key and the own private key, box.Open on
a box, a nonce, the peer's public key and the own private key (none when
authentication fails), and the two functions of package base58. -/
structure Lib where
  scalarBaseMult : Bytes → Bytes
  boxSeal : Bytes → Bytes → Bytes → Bytes → Bytes
  boxOpen : Bytes → Bytes → Bytes → Bytes → Option Bytes
  FastBase58Encoding : Bytes → GoString
  FastBase58Decoding : GoString → Except Err Bytes

/-- The default source of package math/rand over a state type: Seed puts the
source into the state for a seed, next draws one byte for Read. -/
structure MathRand (σ : Type) where
  Seed : σ → Int → σ
  next : σ → Nat × σ

/-- Function math_rand.Read for a buffer of n bytes. -/
def mathRandRead {σ : Type} (R : MathRand σ) : σ → Nat → Bytes × σ
  | s, 0 => ([], s)
  | s, n + 1 =>
    let (b, s1) := R.next s
    let (rest, s2) := mathRandRead R s1 n
    (b :: rest, s2)

/-- What reading crypto_rand.Reader gives: an error, or the bytes it delivers
one after the other. -/
abbrev Entropy := Except Err (Nat → Nat)

/-- The first n bytes of a stream, as io.ReadFull fills a buffer of n bytes. -/
def readFull (stream : Nat → Nat) (n : Nat) : Bytes := (List.range n).map stream

/-- The hash of hash/fnv New32a over the bytes written: FNV-1a, 32 bits. -/
def fnv32a (data : Bytes) : Nat :=
  data.foldl (fun h b => ((h ^^^ b) * 16777619) % 2 ^ 32) 2166136261

/-- Type KeyPair of keypair.go; the two pointers to key arrays are none when
nil. -/
structure KeyPair where
  Public : GoString
  Private : GoString
  private_ : Option Bytes
  public_ : Option Bytes
deriving DecidableEq, Repr

/-- Function keyStringToBytes of keypair.go: (key, err).  A decoded slice
shorter than 32 bytes is modelled as the panic of the slice expression
keyBytes[:32]. -/
def keyStringToBytes (L : Lib) (s : GoString) : Run (Option Bytes × Option Err) :=
  match L.FastBase58Decoding s with
  | .error e => .done (none, some e)
  | .ok keyBytes =>
    if keyBytes.length < 32 then .panic
    else .done (some (keyBytes.take 32), none)

/-- Function FromPair of keypair.go: (kp, err). -/
def FromPair (L : Lib) (pub priv : GoString) : Run (KeyPair × Option Err) :=
  let kp : KeyPair := { Public := pub, Private := priv, private_ := none, public_ := none }
  match keyStringToBytes L kp.Public with
  | .panic => .panic
  | .done (key, some e) => .done ({ kp with public_ := key }, some e)
  | .done (key, none) =>
    let kp1 := { kp with public_ := key }
    match keyStringToBytes L kp1.Private with
    | .panic => .panic
    | .done (key2, err) => .done ({ kp1 with private_ := key2 }, err)

/-- Function FromPublic of keypair.go: (kp, err). -/
def FromPublic (L : Lib) (pub : GoString) : Run (KeyPair × Option Err) :=
  let kp : KeyPair := { Public := pub, Private := [], private_ := none, public_ := none }
  match keyStringToBytes L kp.Public with
  | .panic => .panic
  | .done (key, err) => .done ({ kp with public_ := key }, err)

/-- Function GenerateKeys of keypair.go: box.GenerateKey reads the 32 bytes of
the private key from crypto_rand.Reader. -/
def GenerateKeys (L : Lib) (entropy : Entropy) : Run (GoString × GoString) :=
  match entropy with
  | .error _ => .panic
  | .ok stream =>
    let privateKeyBytes := readFull stream 32
    let publicKeyBytes := L.scalarBaseMult privateKeyBytes
    .done (L.FastBase58Encoding publicKeyBytes, L.FastBase58Encoding privateKeyBytes)

/-- Function New of keypair.go. -/
def New (L : Lib) (entropy : Entropy) : Run KeyPair :=
  match GenerateKeys L entropy with
  | .panic => .panic
  | .done (pub, priv) =>
    let kp : KeyPair := { Public := pub, Private := priv, private_ := none, public_ := none }
    match keyStringToBytes L kp.Public with
    | .panic => .panic
    | .done (_, some _) => .panic
    | .done (key, none) =>
      match keyStringToBytes L kp.Private with
      | .panic => .panic
      | .done (_, some _) => .panic
      | .done (key2, none) => .done { kp with public_ := key, private_ := key2 }

/-- Function GenerateKeysDeterministic of keypair.go, on the state of the
default source of math/rand. -/
def GenerateKeysDeterministic {σ : Type} (L : Lib) (R : MathRand σ) (s : σ)
    (seedBytes : Bytes) : Run (GoString × GoString) × σ :=
  let s1 := R.Seed s (Int.ofNat (fnv32a seedBytes))
  let (b, s2) := mathRandRead R s1 512
  if b.length < 32 then (.panic, s2)
  else
    let privateKeyBytes := b.take 32
    let publicKeyBytes := L.scalarBaseMult privateKeyBytes
    (.done (L.FastBase58Encoding publicKeyBytes, L.FastBase58Encoding privateKeyBytes), s2)

/-- Function NewDeterministic of keypair.go. -/
def NewDeterministic {σ : Type} (L : Lib) (R : MathRand σ) (s : σ) (passphrase : GoString) :
    Run KeyPair × σ :=
  match GenerateKeysDeterministic L R s passphrase with
  | (.panic, s2) => (.panic, s2)
  | (.done (pub, priv), s2) =>
    match FromPair L pub priv with
    | .panic => (.panic, s2)
    | .done (kp, _) => (.done kp, s2)

/-- Function encryptWithKeyPair of keypair.go: (encrypted, err). -/
def encryptWithKeyPair (L : Lib) (entropy : Entropy) (msg : Bytes)
    (senderPrivateKey recipientPublicKey : Option Bytes) : Run (Bytes × Option Err) :=
  match entropy with
  | .error e => .done ([], some e)
  | .ok stream =>
    let nonce := readFull stream 24
    match recipientPublicKey, senderPrivateKey with
    | some pub, some priv => .done (nonce ++ L.boxSeal msg nonce pub priv, none)
    | _, _ => .panic

/-- Function decryptWithKeyPair of keypair.go: (decrypted, err).  With fewer
than 24 bytes the slice expressions enc[:24] and enc[24:] are out of range. -/
def decryptWithKeyPair (L : Lib) (enc : Bytes)
    (senderPublicKey recipientPrivateKey : Option Bytes) : Run (Bytes × Option Err) :=
  if enc.length < 24 then .panic
  else
    let decryptNonce := enc.take 24
    match senderPublicKey, recipientPrivateKey with
    | some pub, some priv =>
      match L.boxOpen (enc.drop 24) decryptNonce pub priv with
      | some decrypted => .done (decrypted, none)
      | none => .done ([], some (ascii "keypair decryption failed"))
    | _, _ => .panic

/-- Method Encrypt of keypair.go. -/
def KeyPair.Encrypt (L : Lib) (entropy : Entropy) (kp : KeyPair) (msg : Bytes)
    (recipient : KeyPair) : Run (Bytes × Option Err) :=
  encryptWithKeyPair L entropy msg kp.private_ recipient.public_

/-- Method Decrypt of keypair.go. -/
def KeyPair.Decrypt (L : Lib) (kp : KeyPair) (encrypted : Bytes) (sender : KeyPair) :
    Run (Bytes × Option Err) :=
  decryptWithKeyPair L encrypted sender.public_ kp.private_

/-- Method Signature of keypair.go: (signature, err). -/
def KeyPair.Signature (L : Lib) (entropy : Entropy) (kp : KeyPair) (regionkey : KeyPair) :
    Run (GoString × Option Err) :=
  match kp.Encrypt L entropy kp.Public regionkey with
  | .panic => .panic
  | .done (_, some e) => .done ([], some e)
  | .done (encrypted, none) => .done (L.FastBase58Encoding encrypted, none)

/-- Method Validate of keypair.go: the returned error, none for nil. -/
def KeyPair.Validate (L : Lib) (kp : KeyPair) (signature : GoString) (sender : KeyPair) :
    Run (Option Err) :=
  if signature = [] then .done (some (ascii "no signature to validate"))
  else if sender.Public = [] then .done (some (ascii "no public key to validate"))
  else
    match L.FastBase58Decoding signature with
    | .error e => .done (some (ascii "not base58: " ++ e))
    | .ok encryptedPublicKey =>
      match kp.Decrypt L encryptedPublicKey sender with
      | .panic => .panic
      | .done (_, some e) => .done (some (ascii "not decryptable: " ++ e))
      | .done (decryptedPublicKey, none) =>
        if decryptedPublicKey ≠ sender.Public then .done (some (ascii "signature corrupted"))
        else .done none

/-- A full keypair: both raw keys are present, the public key is the one of
the private key, and the two strings are the base58 renderings of the raw
keys, as New and NewDeterministic build it. -/
def KeyPair.Full (L : Lib) (kp : KeyPair) : Prop :=
  ∃ priv : Bytes, priv.length = 32 ∧
    kp = { Public := L.FastBase58Encoding (L.scalarBaseMult priv),
           Private := L.FastBase58Encoding priv,
           private_ := some priv,
           public_ := some (L.scalarBaseMult priv) }

/-- The assumption on nacl/box: box.Open inverts box.Seal for matching
keypairs (private keys of 32 bytes with their public keys) and the same nonce
of 24 bytes. -/
def Lib.BoxInverts (L : Lib) : Prop :=
  ∀ msg nonce privA privB : Bytes,
    privA.length = 32 → privB.length = 32 → nonce.length = 24 →
    L.boxOpen (L.boxSeal msg nonce (L.scalarBaseMult privB) privA) nonce
      (L.scalarBaseMult privA) privB = some msg

/-- The assumption on base58: decoding inverts encoding on non-empty input,
and only the empty input is rendered as the empty string. -/
def Lib.Base58Inverts (L : Lib) : Prop :=
  ∀ b : Bytes, b ≠ [] → L.FastBase58Decoding (L.FastBase58Encoding b) = .ok b ∧
    L.FastBase58Encoding b ≠ []

/-- The assumption on curve25519: the public key of a private key of 32 bytes
has 32 bytes. -/
def Lib.KeyLength (L : Lib) : Prop :=
  ∀ priv : Bytes, priv.length = 32 → (L.scalarBaseMult priv).length = 32

/-- The assumption on math/rand: Seed initialises the default source to a
state that depends on the seed alone. -/
def MathRand.SeedResets {σ : Type} (R : MathRand σ) : Prop :=
  ∀ (s s' : σ) (seed : Int), R.Seed s seed = R.Seed s' seed

/-- The private-key bytes that GenerateKeysDeterministic draws for a
passphrase. -/
def derivedPrivateKey {σ : Type} (R : MathRand σ) (s : σ) (passphrase : GoString) : Bytes :=
  (mathRandRead R (R.Seed s (Int.ofNat (fnv32a passphrase))) 512).1.take 32

/-- A sample library for concrete runs: the public key is the private key, a
box is the message behind one tag byte computed from the two keys and the
nonce, and base58 is replaced by the identity on non-empty input. -/
def sampleLib : Lib where
  scalarBaseMult := fun priv => priv
  boxSeal := fun msg nonce pub priv => (pub.sum + priv.sum + nonce.sum) :: msg
  boxOpen := fun box nonce pub priv =>
    match box with
    | [] => none
    | tag :: msg => if tag = pub.sum + priv.sum + nonce.sum then some msg else none
  FastBase58Encoding := fun b => b
  FastBase58Decoding := fun s => if s = [] then .error (ascii "zero length string") else .ok s

/-- A sample generator for concrete runs: the state is a counter, Seed sets it
to the seed, and each byte drawn is the counter modulo 256. -/
def sampleRand : MathRand Nat where
  Seed := fun _ seed => seed.toNat
  next := fun s => (s % 256, s + 1)

/-- A sample source of entropy: the byte at position i is i. -/
def sampleEntropy : Entropy := .ok (fun i => i)

/-- A second sample source of entropy: the byte at position i is 2 i + 1. -/
def sampleEntropy2 : Entropy := .ok (fun i => 2 * i + 1)

/-- The keypair that New makes from the first sample source. -/
def sampleBob : KeyPair :=
  { Public := readFull (fun i => i) 32, Private := readFull (fun i => i) 32,
    private_ := some (readFull (fun i => i) 32), public_ := some (readFull (fun i => i) 32) }

/-- The keypair that New makes from the second sample source. -/
def sampleJane : KeyPair :=
  { Public := readFull (fun i => 2 * i + 1) 32, Private := readFull (fun i => 2 * i + 1) 32,
    private_ := some (readFull (fun i => 2 * i + 1) 32),
    public_ := some (readFull (fun i => 2 * i + 1) 32) }

/-! # Theorems -/

/-! ## The patch log is listed in ascending order -/

theorem PatchMap.keyed_set (m : PatchMap) (k : Int) (v : patchFile) (hm : m.Keyed)
    (hv : v.Timestamp = k) : (m.set k v).Keyed := by
  intro e he
  simp only [PatchMap.set, List.mem_cons, List.mem_filter] at he
  rcases he with rfl | ⟨he, -⟩
  · exact hv
  · exact hm e he

theorem scanEntry_keyed (p : Patchitup) (m : PatchMap) (name : GoString) (hm : m.Keyed) :
    (scanEntry p m name).Keyed := by
  unfold scanEntry
  split
  · exact hm
  · simp only
    split
    · exact hm
    · split
      · exact hm
      · exact PatchMap.keyed_set _ _ _ hm rfl

theorem scan_keyed (p : Patchitup) (files : List GoString) (m : PatchMap) (hm : m.Keyed) :
    (files.foldl (scanEntry p) m).Keyed := by
  induction files generalizing m with
  | nil => exact hm
  | cons f fs ih => exact ih _ (scanEntry_keyed p m f hm)

theorem PatchMap.get_timestamp (m : PatchMap) (hm : m.Keyed) (k : Int)
    (hk : k ∈ m.map Prod.fst) : (m.get k).Timestamp = k := by
  unfold PatchMap.get
  cases hfind : m.find? (fun e => decide (e.1 = k)) with
  | none =>
    rcases List.mem_map.1 hk with ⟨e, he, rfl⟩
    have := List.find?_eq_none.1 hfind e he
    simp at this
  | some e =>
    have h1 := List.find?_some hfind
    have h2 := List.mem_of_find?_eq_some hfind
    simp only [decide_eq_true_eq] at h1
    simpa [h1] using hm e h2

theorem map_get_timestamps (m : PatchMap) (hm : m.Keyed) (keys : List Int)
    (hk : ∀ k ∈ keys, k ∈ m.map Prod.fst) :
    (keys.map m.get).map (fun r => r.Timestamp) = keys := by
  induction keys with
  | nil => rfl
  | cons k ks ih =>
    simp only [List.map_cons, List.cons.injEq]
    exact ⟨PatchMap.get_timestamp m hm k (hk k (List.mem_cons_self _ _)),
      ih (fun k' hk' => hk k' (List.mem_cons_of_mem _ hk'))⟩

theorem getPatches_timestamps (p : Patchitup) (files : List GoString) :
    ∃ ps, getPatches p (.ok files) = .ok ps ∧
      ps.map (fun r => r.Timestamp) = sortInts ((files.foldl (scanEntry p) []).map Prod.fst) := by
  refine ⟨_, rfl, ?_⟩
  apply map_get_timestamps
  · exact scan_keyed p files [] (fun e he => by simp at he)
  · intro k hk
    exact (List.perm_insertionSort _ _).subset hk

theorem getPatches_ascending (p : Patchitup) (files : List GoString) :
    ∃ ps, getPatches p (.ok files) = .ok ps ∧
      (ps.map (fun r => r.Timestamp)).Sorted (· ≤ ·) := by
  obtain ⟨ps, h1, h2⟩ := getPatches_timestamps p files
  refine ⟨ps, h1, ?_⟩
  rw [h2]
  exact List.sorted_insertionSort _ _

/-- C2: for every directory listing, the records that getPatches returns are in
ascending order of Timestamp. -/
theorem getPatches_sorted (p : Patchitup) (files : List GoString) :
    ∃ ps, getPatches p (.ok files) = .ok ps ∧
      (ps.map (fun r => r.Timestamp)).Sorted (· ≤ ·) :=
  getPatches_ascending p files

theorem PatchMap.nodup_set (m : PatchMap) (k : Int) (v : patchFile)
    (hm : (m.map Prod.fst).Nodup) : ((m.set k v).map Prod.fst).Nodup := by
  simp only [PatchMap.set, List.map_cons, List.nodup_cons]
  constructor
  · intro h
    rcases List.mem_map.1 h with ⟨e, he, hek⟩
    have := (List.mem_filter.1 he).2
    simp only [ne_eq, decide_not, Bool.not_eq_true', decide_eq_false_iff_not] at this
    exact this hek
  · exact hm.sublist ((List.filter_sublist _).map _)

theorem scan_nodup (p : Patchitup) (files : List GoString) (m : PatchMap)
    (hm : (m.map Prod.fst).Nodup) : ((files.foldl (scanEntry p) m).map Prod.fst).Nodup := by
  induction files generalizing m with
  | nil => exact hm
  | cons f fs ih =>
    apply ih
    unfold scanEntry
    split
    · exact hm
    · dsimp only
      split
      · exact hm
      · split
        · exact hm
        · exact PatchMap.nodup_set _ _ _ hm

/-- The timestamps of the records that getPatches returns are strictly
ascending: of several entries with one timestamp a single record is kept. -/
theorem getPatches_strictly_ascending (p : Patchitup) (files : List GoString) :
    ∃ ps, getPatches p (.ok files) = .ok ps ∧
      (ps.map (fun r => r.Timestamp)).Sorted (· < ·) := by
  obtain ⟨ps, h1, h2⟩ := getPatches_timestamps p files
  refine ⟨ps, h1, ?_⟩
  rw [h2]
  apply List.Sorted.lt_of_le (List.sorted_insertionSort _ _)
  exact (List.perm_insertionSort _ _).nodup_iff.2 (scan_nodup p files [] List.nodup_nil)

/-! ## Rebuild replays the patch log -/

theorem readsOf_append (a b : List Event) : readsOf (a ++ b) = readsOf a ++ readsOf b := by
  induction a with
  | nil => rfl
  | cons e rest ih => cases e <;> simp [readsOf, ih]

theorem hashesOf_append (a b : List Event) : hashesOf (a ++ b) = hashesOf a ++ hashesOf b := by
  induction a with
  | nil => rfl
  | cons e rest ih => cases e <;> simp [hashesOf, ih]

theorem replayFrom_error (C : Codec) (rf : GoString → Except Err Bytes) (e : Err)
    (rs : List patchFile) : replayFrom C rf (.error e) rs = .error e := by
  induction rs with
  | nil => rfl
  | cons r rest ih => simpa [replayFrom] using ih

theorem replayFrom_cons (C : Codec) (rf : GoString → Except Err Bytes) (text : GoString)
    (r : patchFile) (rs : List patchFile) :
    replayFrom C rf (.ok text) (r :: rs) = replayFrom C rf (replayStep C rf text r) rs := rfl

theorem replayFrom_append (C : Codec) (rf : GoString → Except Err Bytes)
    (start : Except Err GoString) (xs ys : List patchFile) :
    replayFrom C rf start (xs ++ ys) = replayFrom C rf (replayFrom C rf start xs) ys := by
  simp [replayFrom, List.foldl_append]

/-- The loop of Rebuild computes the fold. -/
theorem rebuildLoop_result (C : Codec) (rf : GoString → Except Err Bytes)
    (ps : List patchFile) (text : GoString) (tr : List Event) :
    (rebuildLoop C rf ps text tr).1 = replayFrom C rf (.ok text) ps := by
  induction ps generalizing text tr with
  | nil => rfl
  | cons r rest ih =>
    rw [replayFrom_cons]
    unfold rebuildLoop replayStep
    cases h1 : rf r.Filename with
    | error e => simp [replayFrom_error]
    | ok stored =>
      cases h2 : C.decode stored with
      | error e => simp [h2, replayFrom_error]
      | ok delta =>
        cases h3 : C.patchText text delta with
        | error e => simp [h2, h3, replayFrom_error]
        | ok next => simpa [h2, h3] using ih next _

/-- When the loop of Rebuild runs to its end it has read every record once, in
order, and nothing else. -/
theorem rebuildLoop_reads_ok (C : Codec) (rf : GoString → Except Err Bytes)
    (ps : List patchFile) (text : GoString) (tr : List Event) (t : GoString)
    (h : (rebuildLoop C rf ps text tr).1 = .ok t) :
    readsOf (rebuildLoop C rf ps text tr).2 = readsOf tr ++ ps.map (fun r => r.Filename) := by
  induction ps generalizing text tr with
  | nil => simp [rebuildLoop]
  | cons r rest ih =>
    unfold rebuildLoop at h ⊢
    cases h1 : rf r.Filename with
    | error e => simp [h1] at h
    | ok stored =>
      cases h2 : C.decode stored with
      | error e => simp [h1, h2] at h
      | ok delta =>
        cases h3 : C.patchText text delta with
        | error e => simp [h1, h2, h3] at h
        | ok next =>
          simp only [h1, h2, h3] at h ⊢
          rw [ih next _ h]
          simp [readsOf_append, readsOf]

/-- When the loop of Rebuild stops with an error, the error is that of the
first record whose step fails, and that record is the last one read. -/
theorem rebuildLoop_reads_error (C : Codec) (rf : GoString → Except Err Bytes)
    (ps : List patchFile) (text : GoString) (tr : List Event) (e : Err)
    (h : (rebuildLoop C rf ps text tr).1 = .error e) :
    ∃ pre r post t, ps = pre ++ r :: post ∧
      replayFrom C rf (.ok text) pre = .ok t ∧ replayStep C rf t r = .error e ∧
      readsOf (rebuildLoop C rf ps text tr).2
        = readsOf tr ++ (pre ++ [r]).map (fun r => r.Filename) := by
  induction ps generalizing text tr with
  | nil => simp [rebuildLoop] at h
  | cons r rest ih =>
    unfold rebuildLoop at h ⊢
    cases h1 : rf r.Filename with
    | error e1 =>
      simp only [h1] at h ⊢
      refine ⟨[], r, rest, text, rfl, rfl, ?_, ?_⟩
      · simp only [replayStep, h1]; simpa using h
      · simp [readsOf_append, readsOf]
    | ok stored =>
      cases h2 : C.decode stored with
      | error e1 =>
        simp only [h1, h2] at h ⊢
        refine ⟨[], r, rest, text, rfl, rfl, ?_, ?_⟩
        · simp only [replayStep, h1, h2]; simpa using h
        · simp [readsOf_append, readsOf]
      | ok delta =>
        cases h3 : C.patchText text delta with
        | error e1 =>
          simp only [h1, h2, h3] at h ⊢
          refine ⟨[], r, rest, text, rfl, rfl, ?_, ?_⟩
          · simp only [replayStep, h1, h2, h3]; simpa using h
          · simp [readsOf_append, readsOf]
        | ok next =>
          simp only [h1, h2, h3] at h ⊢
          obtain ⟨pre, r', post, t, hps, hpre, hstep, hreads⟩ := ih next _ h
          refine ⟨r :: pre, r', post, t, by simp [hps], ?_, hstep, ?_⟩
          · rw [replayFrom_cons]; simp only [replayStep, h1, h2, h3]; exact hpre
          · rw [hreads]; simp [readsOf_append, readsOf]

/-- When the loop of Rebuild runs to its end it has logged, for each record in
order, the digest of the text rebuilt up to and including that record next to
the record's stored hash. -/
theorem rebuildLoop_hashes (C : Codec) (rf : GoString → Except Err Bytes)
    (ps : List patchFile) (text : GoString) (tr : List Event) (t : GoString)
    (h : (rebuildLoop C rf ps text tr).1 = .ok t) :
    ∃ L : List (GoString × GoString),
      hashesOf (rebuildLoop C rf ps text tr).2 = hashesOf tr ++ L ∧ L.length = ps.length ∧
      ∀ i r, ps[i]? = some r →
        ∃ ti, replayFrom C rf (.ok text) (ps.take (i + 1)) = .ok ti ∧
          L[i]? = some (C.Md5Sum ti, r.Hash) := by
  induction ps generalizing text tr with
  | nil => exact ⟨[], by simp [rebuildLoop], rfl, by simp⟩
  | cons r rest ih =>
    unfold rebuildLoop at h ⊢
    cases h1 : rf r.Filename with
    | error e => simp [h1] at h
    | ok stored =>
      cases h2 : C.decode stored with
      | error e => simp [h1, h2] at h
      | ok delta =>
        cases h3 : C.patchText text delta with
        | error e => simp [h1, h2, h3] at h
        | ok next =>
          simp only [h1, h2, h3] at h ⊢
          obtain ⟨L, hL, hlen, hidx⟩ := ih next _ h
          have hstep : replayStep C rf text r = .ok next := by
            simp only [replayStep, h1, h2, h3]
          refine ⟨(C.Md5Sum next, r.Hash) :: L, ?_, by simp [hlen], ?_⟩
          · rw [hL]; simp [hashesOf_append, hashesOf]
          · intro i r' hi
            cases i with
            | zero =>
              simp only [List.getElem?_cons_zero, Option.some.injEq] at hi
              subst hi
              exact ⟨next, by simp [replayFrom_cons, hstep, replayFrom], by simp⟩
            | succ j =>
              simp only [List.getElem?_cons_succ] at hi
              obtain ⟨ti, h4, h5⟩ := hidx j r' hi
              refine ⟨ti, ?_, by simpa using h5⟩
              rw [List.take_succ_cons, replayFrom_cons, hstep]
              exact h4

/-- C1: Rebuild replays the patch log as a left fold.  For every directory
listing, with patches the records that getPatches returns (in ascending
timestamp order): Rebuild returns no error exactly when the fold of
read-decode-apply over the records from the empty text succeeds; the text
rebuilt is then the value of the fold and every record was read once, in
order; otherwise the error is that of the first failing step and no later
record is read.  For an empty patch log there is no error and the text is
empty. -/
theorem Rebuild_replays_patch_log (C : Codec) (files : List GoString)
    (rf : GoString → Except Err Bytes) (p : Patchitup) (pathToFile : GoString) :
    ∃ patches,
      getPatches { p with filename := (filepathSplit pathToFile).2 } (.ok files) = .ok patches ∧
      (patches.map (fun r => r.Timestamp)).Sorted (· ≤ ·) ∧
      ((Rebuild C (.ok files) rf p pathToFile).err = none ↔
        ∃ text, replayFold C rf patches = .ok text) ∧
      (∀ text, replayFold C rf patches = .ok text →
        (Rebuild C (.ok files) rf p pathToFile).currentText = some text ∧
        readsOf (Rebuild C (.ok files) rf p pathToFile).trace
          = patches.map (fun r => r.Filename) ++ [ascii "test.txt"]) ∧
      (∀ e, (Rebuild C (.ok files) rf p pathToFile).err = some e →
        ∃ pre r post t, patches = pre ++ r :: post ∧
          replayFold C rf pre = .ok t ∧ replayStep C rf t r = .error e ∧
          readsOf (Rebuild C (.ok files) rf p pathToFile).trace
            = (pre ++ [r]).map (fun r => r.Filename)) ∧
      (patches = [] →
        (Rebuild C (.ok files) rf p pathToFile).err = none ∧
        (Rebuild C (.ok files) rf p pathToFile).currentText = some []) := by
  obtain ⟨patches, hget, hsorted⟩ :=
    getPatches_ascending { p with filename := (filepathSplit pathToFile).2 } files
  refine ⟨patches, hget, hsorted, ?_⟩
  have hres := rebuildLoop_result C rf patches [] []
  cases hloop : rebuildLoop C rf patches [] [] with
  | mk res tr =>
    rw [hloop] at hres
    simp only at hres
    cases res with
    | error e =>
      have hR : Rebuild C (.ok files) rf p pathToFile
          = { p := { p with filename := (filepathSplit pathToFile).2 }, err := some e,
              currentText := none, trace := tr } := by
        simp only [Rebuild, hget, hloop]
      have herr := rebuildLoop_reads_error C rf patches [] [] e (by rw [hloop])
      rw [hloop] at herr
      simp only [hR, replayFold, ← hres]
      refine ⟨by simp, by simp, ?_, ?_⟩
      · intro e' he'
        simp only [Option.some.injEq] at he'
        subst he'
        simpa [readsOf] using herr
      · rintro rfl
        simp [replayFrom] at hres
    | ok t =>
      have hR : Rebuild C (.ok files) rf p pathToFile
          = { p := { p with filename := (filepathSplit pathToFile).2 }, err := none,
              currentText := some t, trace := tr ++ [Event.readFile (ascii "test.txt")] } := by
        simp only [Rebuild, hget, hloop]
      have hok := rebuildLoop_reads_ok C rf patches [] [] t (by rw [hloop])
      rw [hloop] at hok
      simp only [hR, replayFold, ← hres]
      refine ⟨by simp, ?_, by simp, ?_⟩
      · intro text ht
        simp only [Except.ok.injEq] at ht
        subst ht
        refine ⟨rfl, ?_⟩
        rw [readsOf_append, hok]
        simp [readsOf]
      · rintro rfl
        simp [replayFrom] at hres
        simp [hres]

/-- When the cache folder cannot be listed, Rebuild returns the error of
ioutil.ReadDir and reads no file. -/
theorem Rebuild_readDir_error (C : Codec) (e : Err) (rf : GoString → Except Err Bytes)
    (p : Patchitup) (pathToFile : GoString) :
    (Rebuild C (.error e) rf p pathToFile).err = some e ∧
    (Rebuild C (.error e) rf p pathToFile).trace = [] := ⟨rfl, rfl⟩

/-- The scenario of the spec: three records with the timestamps 1, 2 and 3 that
append a, b and c, listed out of order, rebuild to abc. -/
theorem Rebuild_three_records :
    (Rebuild sampleCodec (.ok [ascii "f.txt.h3.3", ascii "f.txt.h1.1", ascii "f.txt.h2.2"])
      (fun path =>
        if path = ascii "/c/f.txt.h1.1" then .ok (ascii "a")
        else if path = ascii "/c/f.txt.h2.2" then .ok (ascii "b")
        else if path = ascii "/c/f.txt.h3.3" then .ok (ascii "c")
        else .error (ascii "no such file"))
      sampleClient (ascii "/w/f.txt")).currentText = some (ascii "abc") ∧
    (Rebuild sampleCodec (.ok [ascii "f.txt.h3.3", ascii "f.txt.h1.1", ascii "f.txt.h2.2"])
      (fun path =>
        if path = ascii "/c/f.txt.h1.1" then .ok (ascii "a")
        else if path = ascii "/c/f.txt.h2.2" then .ok (ascii "b")
        else if path = ascii "/c/f.txt.h3.3" then .ok (ascii "c")
        else .error (ascii "no such file"))
      sampleClient (ascii "/w/f.txt")).err = none := by
  decide

/-! ## A digest mismatch during Rebuild -/

/-- C7, counterexample: a patch log of one record whose stored hash WRONG is not
the digest of the rebuilt text; Rebuild rebuilds the text, logs the two
different hashes and returns no error. -/
theorem Rebuild_hash_mismatch_returns_nil :
    getPatches { sampleClient with filename := ascii "a.txt" } (.ok [ascii "a.txt.WRONG.1"])
        = .ok [⟨ascii "/c/a.txt.WRONG.1", ascii "WRONG", 1⟩] ∧
      (Rebuild sampleCodec (.ok [ascii "a.txt.WRONG.1"]) (fun _ => .ok (ascii "a"))
        sampleClient (ascii "a.txt")).currentText = some (ascii "a") ∧
      sampleCodec.Md5Sum (ascii "a") ≠ ascii "WRONG" ∧
      hashesOf (Rebuild sampleCodec (.ok [ascii "a.txt.WRONG.1"]) (fun _ => .ok (ascii "a"))
        sampleClient (ascii "a.txt")).trace = [(sampleCodec.Md5Sum (ascii "a"), ascii "WRONG")] ∧
      (Rebuild sampleCodec (.ok [ascii "a.txt.WRONG.1"]) (fun _ => .ok (ascii "a"))
        sampleClient (ascii "a.txt")).err = none := by
  decide

/-- C7, amended: a digest mismatch is only written to the debug log.  For every
directory listing, when reading, decoding and applying succeed for every
record, Rebuild returns no error whatever the stored hashes are, and its log
holds for each record, in order, the digest of the text rebuilt up to and
including that record next to the record's stored hash. -/
theorem Rebuild_only_logs_hashes (C : Codec) (files : List GoString)
    (rf : GoString → Except Err Bytes) (p : Patchitup) (pathToFile : GoString) :
    ∃ patches,
      getPatches { p with filename := (filepathSplit pathToFile).2 } (.ok files) = .ok patches ∧
      ∀ text, replayFold C rf patches = .ok text →
        (Rebuild C (.ok files) rf p pathToFile).err = none ∧
        (hashesOf (Rebuild C (.ok files) rf p pathToFile).trace).length = patches.length ∧
        ∀ i r, patches[i]? = some r →
          ∃ ti, replayFold C rf (patches.take (i + 1)) = .ok ti ∧
            (hashesOf (Rebuild C (.ok files) rf p pathToFile).trace)[i]?
              = some (C.Md5Sum ti, r.Hash) := by
  obtain ⟨patches, hget, -⟩ :=
    getPatches_ascending { p with filename := (filepathSplit pathToFile).2 } files
  refine ⟨patches, hget, ?_⟩
  intro text htext
  have hres := rebuildLoop_result C rf patches [] []
  rw [← replayFold, htext] at hres
  obtain ⟨L, hL, hlen, hidx⟩ := rebuildLoop_hashes C rf patches [] [] text hres
  cases hloop : rebuildLoop C rf patches [] [] with
  | mk res tr =>
    rw [hloop] at hres hL
    simp only at hres hL
    subst hres
    have hR : Rebuild C (.ok files) rf p pathToFile
        = { p := { p with filename := (filepathSplit pathToFile).2 }, err := none,
            currentText := some text, trace := tr ++ [Event.readFile (ascii "test.txt")] } := by
      simp only [Rebuild, hget, hloop]
    have hh : hashesOf (tr ++ [Event.readFile (ascii "test.txt")]) = L := by
      rw [hashesOf_append, hL]; simp [hashesOf]
    simp only [hR, hh]
    exact ⟨trivial, hlen, hidx⟩

/-! ## PatchUp keeps the snapshot when the upload fails -/

theorem stringsSplit_ne_nil (sep : Nat) (s : GoString) : stringsSplit sep s ≠ [] := by
  induction s with
  | nil => simp [stringsSplit]
  | cons c cs ih =>
    unfold stringsSplit
    split
    · simp
    · split <;> simp

theorem stringsSplit_no_sep (sep : Nat) (s : GoString) :
    ∀ piece ∈ stringsSplit sep s, sep ∉ piece := by
  induction s with
  | nil => simp [stringsSplit]
  | cons c cs ih =>
    unfold stringsSplit
    split
    · intro piece hp
      rcases List.mem_cons.1 hp with rfl | hp
      · simp
      · exact ih piece hp
    · rename_i hc
      split
      · intro piece hp
        simp only [List.mem_singleton] at hp
        subst hp
        simpa using fun h => hc h.symm
      · rename_i piece0 pieces heq
        intro piece hp
        rw [heq] at ih
        rcases List.mem_cons.1 hp with rfl | hp
        · intro hmem
          rcases List.mem_cons.1 hmem with h | h
          · exact hc h.symm
          · exact ih piece0 (List.mem_cons_self _ _) h
        · exact ih piece (List.mem_cons_of_mem _ hp)

theorem stringsSplit_append_sep (sep : Nat) (a b : GoString) (hb : sep ∉ b) :
    stringsSplit sep b = [b] ∧ stringsSplit sep (a ++ sep :: b) = stringsSplit sep a ++ [b] := by
  have h1 : stringsSplit sep b = [b] := by
    induction b with
    | nil => rfl
    | cons c cs ih =>
      have hc : ¬ c = sep := fun h => hb (by simp [h])
      have hcs : sep ∉ cs := fun h => hb (List.mem_cons_of_mem _ h)
      simp [stringsSplit, hc, ih hcs]
  refine ⟨h1, ?_⟩
  induction a with
  | nil => simp [stringsSplit, h1]
  | cons c cs ih =>
    by_cases hc : c = sep
    · simp [stringsSplit, hc, ih]
    · have hne := stringsSplit_ne_nil sep cs
      cases hsplit : stringsSplit sep cs with
      | nil => exact absurd hsplit hne
      | cons piece pieces =>
        have happ : cs.append (sep :: b) = cs ++ sep :: b := rfl
        simp only [List.cons_append, stringsSplit, hc, if_false, happ, ih, hsplit,
          List.cons_append]

theorem stringsJoin_getLast (sep : GoString) (xs : List GoString) (el : GoString)
    (hel : el ≠ []) : (stringsJoin sep (xs ++ [el])).getLast? = el.getLast? := by
  induction xs with
  | nil => simp [stringsJoin]
  | cons x rest ih =>
    cases hrest : rest ++ [el] with
    | nil => simp at hrest
    | cons y ys =>
      have hne : stringsJoin sep (rest ++ [el]) ≠ [] := by
        intro h
        rw [h] at ih
        exact hel (List.getLast?_eq_none_iff.1 ih.symm)
      rw [List.cons_append, hrest, stringsJoin, ← hrest, ← ih]
      rw [List.getLast?_append_of_ne_nil _ hne]

theorem getLast?_cons_ne_nil (c : Nat) (body : List Nat) (h : body ≠ []) :
    (c :: body).getLast? = body.getLast? := by
  cases body with
  | nil => exact absurd rfl h
  | cons y ys => rw [List.getLast?_cons_cons]

theorem pathClean_getLast (path : GoString) (xs : List GoString) (el : GoString)
    (hsplit : stringsSplit slash path = xs ++ [el]) (hpath : path ≠ [])
    (h1 : el ≠ []) (h2 : el ≠ [dot]) (h3 : el ≠ [dot, dot]) :
    (pathClean path).getLast? = el.getLast? := by
  cases path with
  | nil => exact absurd rfl hpath
  | cons c cs =>
    simp only [pathClean, hsplit, List.foldl_append, List.foldl_cons, List.foldl_nil]
    have hstep : ∀ kept, cleanStep (decide (c = slash)) kept el = el :: kept := by
      intro kept
      simp [cleanStep, h1, h2, h3]
    rw [hstep, List.reverse_cons]
    have hlast := stringsJoin_getLast [slash] (List.foldl (cleanStep (decide (c = slash))) [] xs).reverse
      el h1
    have hne : stringsJoin [slash]
        ((List.foldl (cleanStep (decide (c = slash))) [] xs).reverse ++ [el]) ≠ [] := by
      intro h
      rw [h] at hlast
      exact h1 (List.getLast?_eq_none_iff.1 hlast.symm)
    split
    · rw [← hlast]
      exact getLast?_cons_ne_nil _ _ hne
    · exact hlast

/-- The snapshot path that PatchUp builds ends in the byte t of the suffix
.last, whatever the cache folder and the file name are. -/
theorem pathJoin_last_getLast (a f : GoString) (hf : slash ∉ f) :
    (pathJoin a (f ++ ascii ".last")).getLast? = some 116 := by
  have hel : slash ∉ f ++ ascii ".last" := by
    intro h
    rcases List.mem_append.1 h with h | h
    · exact hf h
    · revert h; decide
  have hlen : 5 ≤ (f ++ ascii ".last").length := by
    rw [List.length_append]
    have : (ascii ".last").length = 5 := by decide
    omega
  have h1 : f ++ ascii ".last" ≠ [] := by
    intro h; rw [h] at hlen; simp at hlen
  have h2 : f ++ ascii ".last" ≠ [dot] := by
    intro h; rw [h] at hlen; simp at hlen
  have h3 : f ++ ascii ".last" ≠ [dot, dot] := by
    intro h; rw [h] at hlen; simp at hlen
  have hlast : (f ++ ascii ".last").getLast? = some 116 := by
    rw [List.getLast?_append_of_ne_nil _ (by decide)]
    decide
  obtain ⟨hs1, hs2⟩ := stringsSplit_append_sep slash a (f ++ ascii ".last") hel
  unfold pathJoin
  split
  · rw [← hlast]
    apply pathClean_getLast _ (stringsSplit slash a) _ _ (by simp) h1 h2 h3
    simpa using hs2
  · rw [← hlast]
    exact pathClean_getLast _ [] _ (by simpa using hs1) h1 h1 h2 h3

theorem filepathSplit_file_no_slash (path : GoString) : slash ∉ (filepathSplit path).2 := by
  simp only [filepathSplit]
  cases h : (stringsSplit slash path).getLast? with
  | none => simp
  | some file =>
    simp only [Option.getD_some]
    exact stringsSplit_no_sep slash path file (List.mem_of_getLast?_eq_some h)

theorem temp_ne_last (pathToFile a f : GoString) (hf : slash ∉ f) :
    pathJoin a (f ++ ascii ".last") ≠ pathToFile ++ ascii ".temp" := by
  intro h
  have h1 := pathJoin_last_getLast a f hf
  rw [h, List.getLast?_append_of_ne_nil _ (by decide)] at h1
  revert h1
  decide

theorem FS.read_write_ne (fs : FS) (q path : GoString) (content : Bytes) (h : path ≠ q) :
    (fs.write q content).read path = fs.read path := by
  have hq : ¬ q = path := fun h' => h h'.symm
  simp [FS.read, FS.write, List.find?_cons, hq]

/-- C6: if the upload of the patch fails, PatchUp returns the error of
uploadPatches and the cached snapshot, the file with the suffix .last in the
cache folder, has the content it had before the call. -/
theorem PatchUp_failed_upload_keeps_snapshot (C : Codec) (net : Transport) (unixNano : Int)
    (fs : FS) (p : Patchitup) (pathToFile : GoString) (e : Err)
    (h : (PatchUp C net unixNano fs p pathToFile).upload = some (some e)) :
    (PatchUp C net unixNano fs p pathToFile).err = some e ∧
    (PatchUp C net unixNano fs p pathToFile).fs.read
        (pathJoin p.cacheFolder ((filepathSplit pathToFile).2 ++ ascii ".last"))
      = fs.read (pathJoin p.cacheFolder ((filepathSplit pathToFile).2 ++ ascii ".last")) := by
  have hne := temp_ne_last pathToFile p.cacheFolder _ (filepathSplit_file_no_slash pathToFile)
  generalize hout : PatchUp C net unixNano fs p pathToFile = out at h ⊢
  unfold PatchUp at hout
  split at hout
  · subst hout; simp at h
  · split at hout
    · subst hout; simp at h
    · rename_i fs1 hcopy
      have hfs1 : ∀ path, path ≠ pathToFile ++ ascii ".temp" → fs1.read path = fs.read path := by
        intro path hpath
        unfold utilsCopyFile at hcopy
        split at hcopy
        · simp at hcopy
        · simp only [Prod.mk.injEq, true_and] at hcopy
          rw [← hcopy]
          exact FS.read_write_ne _ _ _ _ hpath
      dsimp only at hout
      split at hout
      · subst hout; simp at h
      · split at hout
        · subst hout; simp at h
        · split at hout
          · subst hout
            simp only [Option.some.injEq] at h
            subst h
            exact ⟨rfl, hfs1 _ hne⟩
          · subst hout; simp at h

/-- The upload fails exactly on a transport error or on a response with
success=false, whose message is then the error. -/
theorem uploadPatches_fails_iff (net : Transport) (unixNano : Int) (p : Patchitup)
    (patch : GoString) (e : Err) :
    uploadPatches net unixNano p patch = some e ↔
      (net (p.serverAddress ++ ascii "/patch")
          { Username := p.username,
            Filename := p.filename ++ [dot] ++ p.hashLocal ++ [dot]
              ++ formatInt (unixNano.tdiv 1000000),
            Patch := patch } = .error e ∨
        ∃ resp, net (p.serverAddress ++ ascii "/patch")
          { Username := p.username,
            Filename := p.filename ++ [dot] ++ p.hashLocal ++ [dot]
              ++ formatInt (unixNano.tdiv 1000000),
            Patch := patch } = .ok resp ∧
          resp.Success = false ∧ resp.Message = e) := by
  unfold uploadPatches postToServer
  dsimp only
  cases hnet : net (p.serverAddress ++ ascii "/patch")
      { Username := p.username,
        Filename := p.filename ++ [dot] ++ p.hashLocal ++ [dot]
          ++ formatInt (unixNano.tdiv 1000000),
        Patch := patch } with
  | error e1 => simp
  | ok resp => cases hs : resp.Success <;> simp [hs]

/-- The snapshot changes only in a run whose call of uploadPatches returned
without error. -/
theorem PatchUp_snapshot_changes_only_after_upload (C : Codec) (net : Transport)
    (unixNano : Int) (fs : FS) (p : Patchitup) (pathToFile : GoString)
    (h : (PatchUp C net unixNano fs p pathToFile).upload ≠ some none) :
    (PatchUp C net unixNano fs p pathToFile).fs.read
        (pathJoin p.cacheFolder ((filepathSplit pathToFile).2 ++ ascii ".last"))
      = fs.read (pathJoin p.cacheFolder ((filepathSplit pathToFile).2 ++ ascii ".last")) := by
  have hne := temp_ne_last pathToFile p.cacheFolder _ (filepathSplit_file_no_slash pathToFile)
  generalize hout : PatchUp C net unixNano fs p pathToFile = out at h ⊢
  unfold PatchUp at hout
  split at hout
  · subst hout; rfl
  · have hcopyfs : ∀ r, utilsCopyFile fs pathToFile (pathToFile ++ ascii ".temp") = r →
        ∀ path, path ≠ pathToFile ++ ascii ".temp" → r.2.read path = fs.read path := by
      intro r hr path hpath
      unfold utilsCopyFile at hr
      split at hr
      · subst hr; rfl
      · subst hr
        exact FS.read_write_ne _ _ _ _ hpath
    split at hout
    · rename_i e1 fs1 hcopy
      subst hout
      exact hcopyfs _ hcopy _ hne
    · rename_i fs1 hcopy
      have hfs1 := hcopyfs _ hcopy _ hne
      dsimp only at hout
      split at hout
      · subst hout; exact hfs1
      · split at hout
        · subst hout; exact hfs1
        · split at hout
          · subst hout; exact hfs1
          · subst hout; simp at h

/-- C6, witness: the server refuses the patch of a.txt; PatchUp returns the
server's message and the snapshot /c/a.txt.last keeps its content. -/
theorem PatchUp_failed_upload_keeps_snapshot_witness :
    (PatchUp sampleCodec denyingServer 5000000 sampleFS sampleClient (ascii "/w/a.txt")).upload
        = some (some (ascii "denied")) ∧
      ((PatchUp sampleCodec denyingServer 5000000 sampleFS sampleClient (ascii "/w/a.txt")).err
          = some (ascii "denied") ∧
        (PatchUp sampleCodec denyingServer 5000000 sampleFS sampleClient (ascii "/w/a.txt")).fs.read
            (pathJoin sampleClient.cacheFolder
              ((filepathSplit (ascii "/w/a.txt")).2 ++ ascii ".last"))
          = sampleFS.read (pathJoin sampleClient.cacheFolder
              ((filepathSplit (ascii "/w/a.txt")).2 ++ ascii ".last"))) :=
  ⟨by decide, PatchUp_failed_upload_keeps_snapshot sampleCodec denyingServer 5000000 sampleFS
    sampleClient (ascii "/w/a.txt") (ascii "denied") (by decide)⟩


/-! ## Encryption, signatures -/

theorem readFull_length (stream : Nat → Nat) (n : Nat) : (readFull stream n).length = n := by
  simp [readFull]

theorem mathRandRead_length {σ : Type} (R : MathRand σ) (s : σ) (n : Nat) :
    (mathRandRead R s n).1.length = n := by
  induction n generalizing s with
  | zero => rfl
  | succ k ih =>
    simp only [mathRandRead, List.length_cons, ih]

theorem keyStringToBytes_encoding (L : Lib) (h58 : L.Base58Inverts) (key : Bytes)
    (hlen : key.length = 32) :
    keyStringToBytes L (L.FastBase58Encoding key) = .done (some key, none) := by
  have hne : key ≠ [] := by
    intro h; rw [h] at hlen; simp at hlen
  simp [keyStringToBytes, (h58 key hne).1, hlen, List.take_of_length_le (le_of_eq hlen)]

/-- What New returns is a full keypair. -/
theorem New_full (L : Lib) (h58 : L.Base58Inverts) (hlen : L.KeyLength) (stream : Nat → Nat) :
    ∃ kp, New L (.ok stream) = .done kp ∧ kp.Full L := by
  refine ⟨_, ?_, readFull stream 32, readFull_length stream 32, rfl⟩
  simp [New, GenerateKeys, keyStringToBytes_encoding L h58 _ (hlen _ (readFull_length stream 32)),
    keyStringToBytes_encoding L h58 _ (readFull_length stream 32)]

theorem Decrypt_Encrypt_roundtrip_aux (L : Lib) (hbox : L.BoxInverts) (bob jane : KeyPair)
    (hb : bob.Full L) (hj : jane.Full L) (M : Bytes) (stream : Nat → Nat) :
    ∃ enc sealed, bob.Encrypt L (.ok stream) M jane = .done (enc, none) ∧
      enc = readFull stream 24 ++ sealed ∧
      enc.take 24 = readFull stream 24 ∧
      jane.Decrypt L enc bob = .done (M, none) := by
  obtain ⟨privB, hlB, rfl⟩ := hb
  obtain ⟨privJ, hlJ, rfl⟩ := hj
  have hn : (readFull stream 24).length = 24 := readFull_length stream 24
  refine ⟨_, L.boxSeal M (readFull stream 24) (L.scalarBaseMult privJ) privB, rfl, rfl, ?_, ?_⟩
  · simp [List.take_append_of_le_length, hn]
  · simp [KeyPair.Decrypt, decryptWithKeyPair, hn, List.take_append_of_le_length,
      List.drop_append_of_le_length, hbox M (readFull stream 24) privB privJ hlB hlJ hn]

/-- C3: for all full keypairs bob and jane, every message M and every nonce
that the entropy source delivers, bob.Encrypt(M, jane) returns without error
the nonce followed by the sealed box, and jane.Decrypt of that ciphertext with
bob as the sender recovers the nonce from the first 24 bytes and returns M
without error. -/
theorem Decrypt_Encrypt_roundtrip (L : Lib) (hbox : L.BoxInverts) (bob jane : KeyPair)
    (hb : bob.Full L) (hj : jane.Full L) (M : Bytes) (stream : Nat → Nat) :
    ∃ enc sealed, bob.Encrypt L (.ok stream) M jane = .done (enc, none) ∧
      enc = readFull stream 24 ++ sealed ∧
      enc.take 24 = readFull stream 24 ∧
      jane.Decrypt L enc bob = .done (M, none) :=
  Decrypt_Encrypt_roundtrip_aux L hbox bob jane hb hj M stream

theorem sampleLib_boxInverts : sampleLib.BoxInverts := by
  intro msg nonce privA privB _ _ _
  simp only [sampleLib]
  rw [if_pos (by omega)]

theorem sampleLib_base58Inverts : sampleLib.Base58Inverts := by
  intro b hb
  simp [sampleLib, hb]

theorem sampleLib_keyLength : sampleLib.KeyLength := fun _ h => h

theorem sampleBob_full : sampleBob.Full sampleLib :=
  ⟨readFull (fun i => i) 32, by decide, rfl⟩

theorem sampleJane_full : sampleJane.Full sampleLib :=
  ⟨readFull (fun i => 2 * i + 1) 32, by decide, rfl⟩

theorem sampleRand_seedResets : sampleRand.SeedResets := fun _ _ _ => rfl

/-- C3, witness: the two sample keypairs, which New makes from the two sample
entropy sources, and the message hi. -/
theorem Decrypt_Encrypt_roundtrip_witness :
    New sampleLib sampleEntropy = .done sampleBob ∧
    New sampleLib sampleEntropy2 = .done sampleJane ∧
    ∃ enc sealed, sampleBob.Encrypt sampleLib sampleEntropy (ascii "hi") sampleJane
        = .done (enc, none) ∧
      enc = readFull (fun i => i) 24 ++ sealed ∧
      enc.take 24 = readFull (fun i => i) 24 ∧
      sampleJane.Decrypt sampleLib enc sampleBob = .done (ascii "hi", none) :=
  ⟨by decide, by decide,
    Decrypt_Encrypt_roundtrip sampleLib sampleLib_boxInverts sampleBob sampleJane
      sampleBob_full sampleJane_full (ascii "hi") (fun i => i)⟩

/-- C4: for all full keypairs K and Shared, and every nonce that the entropy
source delivers, K.Signature(Shared) returns a signature without error,
FromPublic(K.Public) returns K's public half without error, the base58
decoding of the signature decrypts with Shared's private key and K's public
key to exactly K's public-key string, and Shared.Validate of the signature
against that public half returns no error. -/
theorem Validate_Signature (L : Lib) (hbox : L.BoxInverts) (h58 : L.Base58Inverts)
    (hlen : L.KeyLength) (K Shared : KeyPair) (hK : K.Full L) (hS : Shared.Full L)
    (stream : Nat → Nat) :
    ∃ sig sender enc, K.Signature L (.ok stream) Shared = .done (sig, none) ∧
      FromPublic L K.Public = .done (sender, none) ∧
      L.FastBase58Decoding sig = .ok enc ∧
      Shared.Decrypt L enc sender = .done (K.Public, none) ∧
      Shared.Validate L sig sender = .done none := by
  obtain ⟨enc, sealed, henc, hshape, -, hdec⟩ :=
    Decrypt_Encrypt_roundtrip_aux L hbox K Shared hK hS K.Public stream
  obtain ⟨privK, hprivK, rfl⟩ := hK
  have hencne : enc ≠ [] := by
    intro h
    have hl : enc.length = 24 + sealed.length := by
      rw [hshape, List.length_append, readFull_length]
    rw [h] at hl
    simp only [List.length_nil] at hl
    omega
  have hpubne : L.scalarBaseMult privK ≠ [] := by
    intro h
    have := hlen privK hprivK
    rw [h] at this
    simp at this
  have hsig := h58 enc hencne
  have hpub := h58 _ hpubne
  have hfrom : FromPublic L (L.FastBase58Encoding (L.scalarBaseMult privK))
      = .done ({ Public := L.FastBase58Encoding (L.scalarBaseMult privK), Private := [],
                 private_ := none, public_ := some (L.scalarBaseMult privK) }, none) := by
    simp [FromPublic, keyStringToBytes_encoding L h58 _ (hlen privK hprivK)]
  have hdec2 : Shared.Decrypt L enc
      { Public := L.FastBase58Encoding (L.scalarBaseMult privK), Private := [],
        private_ := none, public_ := some (L.scalarBaseMult privK) }
      = .done (L.FastBase58Encoding (L.scalarBaseMult privK), none) := hdec
  refine ⟨L.FastBase58Encoding enc, _, enc, ?_, hfrom, hsig.1, hdec2, ?_⟩
  · simp only [KeyPair.Signature, henc]
  · simp only [KeyPair.Validate, hsig.1, hsig.2, hpub.2, hdec2, if_false, ne_eq,
      not_true_eq_false]

/-- C4, witness: the sample keypair of the first entropy source signs for the
sample keypair of the second one. -/
theorem Validate_Signature_witness :
    New sampleLib sampleEntropy = .done sampleBob ∧
    New sampleLib sampleEntropy2 = .done sampleJane ∧
    ∃ sig sender enc, sampleBob.Signature sampleLib sampleEntropy sampleJane = .done (sig, none) ∧
      FromPublic sampleLib sampleBob.Public = .done (sender, none) ∧
      sampleLib.FastBase58Decoding sig = .ok enc ∧
      sampleJane.Decrypt sampleLib enc sender = .done (sampleBob.Public, none) ∧
      sampleJane.Validate sampleLib sig sender = .done none :=
  ⟨by decide, by decide,
    Validate_Signature sampleLib sampleLib_boxInverts sampleLib_base58Inverts
      sampleLib_keyLength sampleBob sampleJane sampleBob_full sampleJane_full (fun i => i)⟩

/-! ## Deterministic key derivation -/

theorem derivedPrivateKey_length {σ : Type} (R : MathRand σ) (s : σ) (P : GoString) :
    (derivedPrivateKey R s P).length = 32 := by
  simp [derivedPrivateKey, mathRandRead_length]

/-- The keypair that NewDeterministic returns: the full keypair of the private
key drawn for the passphrase. -/
theorem NewDeterministic_value {σ : Type} (L : Lib) (R : MathRand σ) (h58 : L.Base58Inverts)
    (hlen : L.KeyLength) (s : σ) (P : GoString) :
    (NewDeterministic L R s P).1 = .done
      { Public := L.FastBase58Encoding (L.scalarBaseMult (derivedPrivateKey R s P)),
        Private := L.FastBase58Encoding (derivedPrivateKey R s P),
        private_ := some (derivedPrivateKey R s P),
        public_ := some (L.scalarBaseMult (derivedPrivateKey R s P)) } := by
  have h1 := derivedPrivateKey_length R s P
  have h512 := mathRandRead_length R (R.Seed s (Int.ofNat (fnv32a P))) 512
  have hnot : ¬ (mathRandRead R (R.Seed s (Int.ofNat (fnv32a P))) 512).1.length < 32 := by
    omega
  unfold derivedPrivateKey at h1 ⊢
  unfold NewDeterministic GenerateKeysDeterministic
  dsimp only
  rw [if_neg hnot]
  dsimp only
  unfold FromPair
  dsimp only
  rw [keyStringToBytes_encoding L h58 _ (hlen _ h1)]
  dsimp only
  rw [keyStringToBytes_encoding L h58 _ h1]

theorem NewDeterministic_seed_only {σ : Type} (L : Lib) (R : MathRand σ) (hR : R.SeedResets)
    (s1 s2 : σ) (P : GoString) :
    NewDeterministic L R s1 P = NewDeterministic L R s2 P := by
  unfold NewDeterministic GenerateKeysDeterministic
  rw [hR s1 s2]

/-- C5: key derivation is deterministic.  Whatever the state of the default
source of math/rand before the call, NewDeterministic(P) returns the same
keypair: two calls from any two states agree, a second call right after the
first agrees with it, and agreeing keypairs have equal Public and Private
strings and equal raw key bytes. -/
theorem NewDeterministic_deterministic {σ : Type} (L : Lib) (R : MathRand σ)
    (hR : R.SeedResets) (s1 s2 : σ) (P : GoString) :
    (NewDeterministic L R s1 P).1 = (NewDeterministic L R s2 P).1 ∧
    (NewDeterministic L R (NewDeterministic L R s1 P).2 P).1 = (NewDeterministic L R s1 P).1 ∧
    ∀ k1 k2, (NewDeterministic L R s1 P).1 = .done k1 →
      (NewDeterministic L R s2 P).1 = .done k2 →
      k1.Public = k2.Public ∧ k1.Private = k2.Private ∧
      k1.public_ = k2.public_ ∧ k1.private_ = k2.private_ := by
  refine ⟨by rw [NewDeterministic_seed_only L R hR s1 s2],
    by rw [NewDeterministic_seed_only L R hR _ s1], ?_⟩
  intro k1 k2 h1 h2
  rw [NewDeterministic_seed_only L R hR s1 s2, h2] at h1
  simp only [Run.done.injEq] at h1
  subst h1
  exact ⟨rfl, rfl, rfl, rfl⟩

/-- C5, witness: the passphrase 123 on the sample generator, from the states 0
and 7. -/
theorem NewDeterministic_deterministic_witness :
    (∃ k, (NewDeterministic sampleLib sampleRand 0 (ascii "123")).1 = .done k) ∧
    ((NewDeterministic sampleLib sampleRand 0 (ascii "123")).1
        = (NewDeterministic sampleLib sampleRand 7 (ascii "123")).1 ∧
      (NewDeterministic sampleLib sampleRand
          (NewDeterministic sampleLib sampleRand 0 (ascii "123")).2 (ascii "123")).1
        = (NewDeterministic sampleLib sampleRand 0 (ascii "123")).1 ∧
      ∀ k1 k2, (NewDeterministic sampleLib sampleRand 0 (ascii "123")).1 = .done k1 →
        (NewDeterministic sampleLib sampleRand 7 (ascii "123")).1 = .done k2 →
        k1.Public = k2.Public ∧ k1.Private = k2.Private ∧
        k1.public_ = k2.public_ ∧ k1.private_ = k2.private_) :=
  ⟨⟨_, NewDeterministic_value sampleLib sampleRand sampleLib_base58Inverts sampleLib_keyLength 0
      (ascii "123")⟩,
    NewDeterministic_deterministic sampleLib sampleRand sampleRand_seedResets 0 7 (ascii "123")⟩

/-- C10, counterexample: the passphrases costarring and liquid are different
and have the same FNV-1a hash, so NewDeterministic seeds the generator alike
and returns the same keypair for both, whatever the libraries are. -/
theorem NewDeterministic_collision :
    ascii "costarring" ≠ ascii "liquid" ∧
    fnv32a (ascii "costarring") = fnv32a (ascii "liquid") ∧
    ∀ (L : Lib) (R : MathRand Nat) (s : Nat),
      NewDeterministic L R s (ascii "costarring") = NewDeterministic L R s (ascii "liquid") := by
  refine ⟨by decide, by decide, ?_⟩
  intro L R s
  have h : fnv32a (ascii "costarring") = fnv32a (ascii "liquid") := by decide
  unfold NewDeterministic GenerateKeysDeterministic
  rw [h]

/-- C10, amended: the keypair depends on the passphrase through its FNV-1a
hash of 32 bits only.  Passphrases with the same hash derive the same keypair,
and two passphrases derive different keypairs whenever the private-key bytes
drawn from the generator for their seeds differ. -/
theorem NewDeterministic_distinct {σ : Type} (L : Lib) (R : MathRand σ)
    (h58 : L.Base58Inverts) (hlen : L.KeyLength) (s : σ) (P Q : GoString) :
    (fnv32a P = fnv32a Q → NewDeterministic L R s P = NewDeterministic L R s Q) ∧
    (derivedPrivateKey R s P ≠ derivedPrivateKey R s Q →
      (NewDeterministic L R s P).1 ≠ (NewDeterministic L R s Q).1) := by
  constructor
  · intro h
    unfold NewDeterministic GenerateKeysDeterministic
    rw [h]
  · intro hne heq
    rw [NewDeterministic_value L R h58 hlen s P, NewDeterministic_value L R h58 hlen s Q] at heq
    simp only [Run.done.injEq, KeyPair.mk.injEq, Option.some.injEq] at heq
    exact hne heq.2.2.1

set_option maxRecDepth 65536 in
/-- C10, witness: the passphrases 123 and 124 of the test on the sample
generator draw different private keys and derive different keypairs. -/
theorem NewDeterministic_distinct_witness :
    derivedPrivateKey sampleRand 0 (ascii "123") ≠ derivedPrivateKey sampleRand 0 (ascii "124") ∧
    (NewDeterministic sampleLib sampleRand 0 (ascii "123")).1
      ≠ (NewDeterministic sampleLib sampleRand 0 (ascii "124")).1 :=
  ⟨by decide,
    (NewDeterministic_distinct sampleLib sampleRand sampleLib_base58Inverts sampleLib_keyLength 0
      (ascii "123") (ascii "124")).2 (by decide)⟩

/-! ## Decrypting a short ciphertext -/

theorem decryptWithKeyPair_short (L : Lib) (enc : Bytes) (pub priv : Option Bytes)
    (h : enc.length < 24) : decryptWithKeyPair L enc pub priv = .panic := by
  simp [decryptWithKeyPair, h]

/-- C8, the failing input: Decrypt of the empty ciphertext panics, whatever the
library and the two keypairs are; it returns neither a plaintext nor an
error. -/
theorem Decrypt_empty_panics (L : Lib) (kp sender : KeyPair) :
    kp.Decrypt L [] sender = .panic :=
  decryptWithKeyPair_short L [] _ _ (by decide)

/-- A signature whose base58 decoding has fewer than 24 bytes makes Validate
panic. -/
theorem Validate_short_signature_panics (L : Lib) (kp sender : KeyPair)
    (signature : GoString) (enc : Bytes) (h1 : signature ≠ []) (h2 : sender.Public ≠ [])
    (h3 : L.FastBase58Decoding signature = .ok enc) (h4 : enc.length < 24) :
    kp.Validate L signature sender = .panic := by
  simp [KeyPair.Validate, h1, h2, h3, KeyPair.Decrypt, decryptWithKeyPair_short L enc _ _ h4]

/-! ## Record names: what uploadPatches composes and getPatches recognises -/

theorem decimalDigits_value (fuel n : Nat) (acc : GoString) (h : n < fuel) :
    ∃ k, n < 10 ^ k ∧
      ∀ a, digitsValue (decimalDigits fuel n acc) a = digitsValue acc (a * 10 ^ k + n) := by
  induction fuel generalizing n acc with
  | zero => omega
  | succ fuel ih =>
    unfold decimalDigits
    dsimp only
    have hd : 48 ≤ 48 + n % 10 ∧ 48 + n % 10 ≤ 57 := by omega
    by_cases hz : n / 10 = 0
    · rw [if_pos hz]
      refine ⟨1, by omega, fun a => ?_⟩
      have hn : n % 10 = n := by omega
      simp only [digitsValue, hd, and_self, if_true, pow_one]
      congr 1
      omega
    · rw [if_neg hz]
      obtain ⟨k, hk, hval⟩ := ih (n / 10) ((48 + n % 10) :: acc) (by omega)
      refine ⟨k + 1, by rw [pow_succ]; omega, fun a => ?_⟩
      rw [hval]
      simp only [digitsValue, hd, and_self, if_true]
      congr 1
      rw [pow_succ]
      have := Nat.div_add_mod n 10
      have h48 : 48 + n % 10 - 48 = n % 10 := by omega
      rw [h48, add_mul, mul_assoc]
      omega

theorem decimalDigits_bytes (fuel n : Nat) (acc : GoString) :
    ∀ c ∈ decimalDigits fuel n acc, c ∈ acc ∨ (48 ≤ c ∧ c ≤ 57) := by
  induction fuel generalizing n acc with
  | zero => intro c hc; exact Or.inl hc
  | succ fuel ih =>
    unfold decimalDigits
    dsimp only
    intro c hc
    split at hc
    · rcases List.mem_cons.1 hc with rfl | hc
      · right; omega
      · exact Or.inl hc
    · rcases ih _ _ c hc with h | h
      · rcases List.mem_cons.1 h with rfl | h
        · right; omega
        · exact Or.inl h
      · exact Or.inr h

theorem decimalDigits_ne_nil (fuel n : Nat) (acc : GoString) :
    decimalDigits (fuel + 1) n acc ≠ [] := by
  induction fuel generalizing n acc with
  | zero =>
    unfold decimalDigits
    dsimp only
    split
    · simp
    · simp [decimalDigits]
  | succ fuel ih =>
    unfold decimalDigits
    dsimp only
    split
    · simp
    · exact ih _ _

/-- Atoi reads back what %d prints, for every timestamp of the int64 range that
is not negative. -/
theorem Atoi_formatInt (n : Nat) (h : n < 2 ^ 63) : Atoi (formatInt (Int.ofNat n)) = some n := by
  obtain ⟨k, -, hval⟩ := decimalDigits_value (n + 1) n [] (by omega)
  have hbytes := decimalDigits_bytes (n + 1) n []
  have hne := decimalDigits_ne_nil n n []
  simp only [formatInt]
  cases hds : decimalDigits (n + 1) n [] with
  | nil => exact absurd hds hne
  | cons c cs =>
    rw [hds] at hbytes hval
    have hc : 48 ≤ c ∧ c ≤ 57 := by
      rcases hbytes c (List.mem_cons_self _ _) with h | h
      · simp at h
      · exact h
    have h45 : ¬ c = 45 := by omega
    have h43 : ¬ c = 43 := by omega
    have hv := hval 0
    simp only [zero_mul, zero_add] at hv
    have hv2 : digitsValue (c :: cs) 0 = some n := by rw [hv]; rfl
    have hrange : -(2 : Int) ^ 63 ≤ (n : Int) ∧ (n : Int) < (2 : Int) ^ 63 := by
      constructor
      · have : (0 : Int) ≤ (n : Int) := Int.ofNat_nonneg n
        have : -(2 : Int) ^ 63 ≤ 0 := by norm_num
        omega
      · exact_mod_cast h
    simp only [Atoi, h45, h43, or_self, if_false, decide_False, hv2, hrange, and_self, if_true,
      List.cons_ne_nil, Bool.false_eq_true]
    rfl

theorem formatInt_no_dot (n : Nat) : dot ∉ formatInt (Int.ofNat n) := by
  intro h
  rcases decimalDigits_bytes (n + 1) n [] dot h with h | h
  · simp at h
  · simp [dot] at h

theorem stringsSplit_length (sep : Nat) (s : GoString) :
    (stringsSplit sep s).length = s.count sep + 1 := by
  induction s with
  | nil => rfl
  | cons c cs ih =>
    unfold stringsSplit
    by_cases hc : c = sep
    · subst hc
      simp [ih]
    · have hc2 : ¬ (c == sep) = true := by simpa using hc
      rw [if_neg hc]
      cases hs : stringsSplit sep cs with
      | nil => exact absurd hs (stringsSplit_ne_nil sep cs)
      | cons piece pieces =>
        rw [hs] at ih
        simp only [List.length_cons] at ih ⊢
        rw [List.count_cons, if_neg hc2]
        omega

/-- The pieces of a record name composed from a file name, a hash without a
dot and a printed timestamp. -/
theorem stringsSplit_recordName (f hash : GoString) (n : Nat) (hh : dot ∉ hash) :
    stringsSplit dot (f ++ [dot] ++ hash ++ [dot] ++ formatInt (Int.ofNat n))
      = stringsSplit dot f ++ [hash, formatInt (Int.ofNat n)] := by
  have h1 := (stringsSplit_append_sep dot (f ++ [dot] ++ hash) _ (formatInt_no_dot n)).2
  have h2 := (stringsSplit_append_sep dot f hash hh).2
  have e1 : f ++ [dot] ++ hash ++ [dot] ++ formatInt (Int.ofNat n)
      = (f ++ [dot] ++ hash) ++ dot :: formatInt (Int.ofNat n) := by simp
  have e2 : f ++ [dot] ++ hash = f ++ dot :: hash := by simp
  rw [e1, h1, e2, h2]
  simp

/-- What the loop body of getPatches does with a record name composed by
uploadPatches: with a dot in the file name the record is stored under its
timestamp with its hash; without one the entry is skipped. -/
theorem scanEntry_recordName (p : Patchitup) (m : PatchMap) (hash : GoString) (n : Nat)
    (hh : dot ∉ hash) (hn : n < 2 ^ 63) :
    scanEntry p m (p.filename ++ [dot] ++ hash ++ [dot] ++ formatInt (Int.ofNat n))
      = if dot ∈ p.filename then
          m.set (Int.ofNat n)
            { Filename := pathJoin p.cacheFolder
                (p.filename ++ [dot] ++ hash ++ [dot] ++ formatInt (Int.ofNat n)),
              Hash := hash, Timestamp := Int.ofNat n }
        else m := by
  have hsplit := stringsSplit_recordName p.filename hash n hh
  have hlen := stringsSplit_length dot p.filename
  have hpre : stringsHasPrefix (p.filename ++ [dot] ++ hash ++ [dot] ++ formatInt (Int.ofNat n))
      (p.filename ++ [dot]) = true := by
    simp [stringsHasPrefix, List.append_assoc]
  unfold scanEntry
  rw [hpre]
  simp only [Bool.not_true, Bool.false_eq_true, if_false, hsplit, List.length_append,
    List.length_cons, List.length_nil, hlen]
  by_cases hd : dot ∈ p.filename
  · have hcount : 0 < p.filename.count dot := List.count_pos_iff.2 hd
    have hlt : ¬ (p.filename.count dot + 1 + (0 + 1 + 1) < 4) := by omega
    rw [if_neg hlt, if_pos hd]
    have hlast : (stringsSplit dot p.filename ++ [hash, formatInt (Int.ofNat n)]).getD
        (p.filename.count dot + 1 + (0 + 1 + 1) - 1) [] = formatInt (Int.ofNat n) := by
      rw [List.getD_eq_getElem?_getD, List.getElem?_append_right (by rw [hlen]; omega)]
      rw [hlen]
      have : p.filename.count dot + 1 + (0 + 1 + 1) - 1 - (p.filename.count dot + 1) = 1 := by
        omega
      rw [this]
      rfl
    have hprev : (stringsSplit dot p.filename ++ [hash, formatInt (Int.ofNat n)]).getD
        (p.filename.count dot + 1 + (0 + 1 + 1) - 2) [] = hash := by
      rw [List.getD_eq_getElem?_getD, List.getElem?_append_right (by rw [hlen]; omega)]
      rw [hlen]
      have : p.filename.count dot + 1 + (0 + 1 + 1) - 2 - (p.filename.count dot + 1) = 0 := by
        omega
      rw [this]
      rfl
    rw [hlast, hprev, Atoi_formatInt n hn]
    rfl
  · have hcount : p.filename.count dot = 0 := List.count_eq_zero.2 hd
    have hlt : p.filename.count dot + 1 + (0 + 1 + 1) < 4 := by omega
    rw [if_pos hlt, if_neg hd]

/-- The record name that uploadPatches posts: file name, local hash and the
time in milliseconds, joined by dots. -/
theorem uploadPatches_recordName (net : Transport) (unixNano : Int) (p : Patchitup)
    (patch : GoString) :
    uploadPatches net unixNano p patch
      = (postToServer net (p.serverAddress ++ ascii "/patch")
          { Username := p.username,
            Filename := p.filename ++ [dot] ++ p.hashLocal ++ [dot]
              ++ formatInt (unixNano.tdiv 1000000),
            Patch := patch }).2 := rfl

/-- The round trip of record names holds for every file name with a dot: the
record composed from the file name, a hash without a dot and a timestamp of
the int64 range that is not negative is listed with that hash and that
timestamp. -/
theorem getPatches_recognises_recordName (p : Patchitup) (hash : GoString) (n : Nat)
    (hh : dot ∉ hash) (hn : n < 2 ^ 63) (hd : dot ∈ p.filename) :
    getPatches p (.ok [p.filename ++ [dot] ++ hash ++ [dot] ++ formatInt (Int.ofNat n)])
      = .ok [{ Filename := pathJoin p.cacheFolder
                 (p.filename ++ [dot] ++ hash ++ [dot] ++ formatInt (Int.ofNat n)),
               Hash := hash, Timestamp := Int.ofNat n }] := by
  simp only [getPatches, List.foldl_cons, List.foldl_nil, scanEntry_recordName p [] hash n hh hn,
    if_pos hd]
  simp [PatchMap.set, PatchMap.get, sortInts]

/-- The round trip of record names fails for every file name without a dot:
the record that uploadPatches composes is skipped by getPatches. -/
theorem getPatches_skips_recordName (p : Patchitup) (hash : GoString) (n : Nat)
    (hh : dot ∉ hash) (hn : n < 2 ^ 63) (hd : dot ∉ p.filename) :
    getPatches p (.ok [p.filename ++ [dot] ++ hash ++ [dot] ++ formatInt (Int.ofNat n)])
      = .ok [] := by
  simp only [getPatches, List.foldl_cons, List.foldl_nil, scanEntry_recordName p [] hash n hh hn,
    if_neg hd]
  simp [sortInts]

/-- C9, the failing input: for the file name README, the hash abc and the
timestamp 5 uploadPatches posts the record name README.abc.5 (the transport
here answers with the name it was sent), and getPatches for README, on a
directory that holds this one record, returns no record. -/
theorem getPatches_misses_README :
    uploadPatches (fun _ sr => .error sr.Filename) 5000000
        { sampleClient with filename := ascii "README", hashLocal := ascii "abc" } []
      = some (ascii "README.abc.5") ∧
    getPatches { sampleClient with filename := ascii "README" } (.ok [ascii "README.abc.5"])
      = .ok [] := by
  decide


end PatchItUp
